import Mathlib

/-!
Verification development for the brainstorm data-iterator module
(src/brainstorm/data_iterators.py).

Modelling conventions:
  - A named dataset is an association list from names to arrays.
  - An array with numpy shape (T, N, features...) is modelled as a
    List (List alpha): the outer list ranges over the time axis (axis 0),
    each inner list over the batch axis (axis 1), and the remaining
    feature axes are collapsed into the element type alpha.  All slicing
    performed by the iterators acts only on axis 1, so this collapse is
    faithful.
  - For the shape validator, which inspects shape tuples and the presence
    of a shape attribute, an array is modelled by Option (List Nat):
    none models an object without a shape attribute, some sh models an
    array whose shape tuple is sh.
  - Fallible constructors are modelled with Except.
  - The pseudo-random shuffle (an external collaborator, per the spec) is
    modelled by quantifying over an arbitrary permutation of the index
    range, and shuffle disabled is the identity order List.range.
-/

/-- Array model: outer list is the time axis, inner list the batch axis. -/
abbrev Arr (α : Type) := List (List α)

/-- Named dataset: association list from data names to arrays. -/
abbrev NamedData (α : Type) := List (String × Arr α)

/-- Row profile of an array: the length of the outer list together with the
length of each inner list; this is the part of the numpy shape that the
embedding tracks (axes 0 and 1). -/
def rowProfile {α : Type} (v : Arr α) : List Nat := v.map List.length

/-- Slice v[:, a:b] of data_iterators.py: every time row is restricted to
batch positions a..b-1, clamped at the row length exactly as Python slicing
clamps. -/
def sliceBatch {α : Type} (a b : Nat) (v : Arr α) : Arr α :=
  v.map (fun row => (row.drop a).take (b - a))

/-- Number of index chunks, int(math.ceil(n / bs)) of Minibatches.__call__
(line 162), for a positive chunk size bs. -/
def nrChunks (n bs : Nat) : Nat := (n + bs - 1) / bs

/-- Batches produced by Minibatches.__call__ (lines 166-171) for a given
list of chunk indices: each index idx contributes the batch mapping every
name to the slice v[:, idx*bs : (idx+1)*bs]. -/
def minibatchesSlices {α : Type} (bs : Nat) (indices : List Nat) (data : NamedData α) :
    List (NamedData α) :=
  indices.map (fun idx =>
    data.map (fun kv => (kv.1, sliceBatch (idx * bs) ((idx + 1) * bs) kv.2)))

/-- Minibatches.__call__ with shuffle disabled: the chunk indices are
np.arange(ceil(n / bs)) in increasing order. -/
def minibatchesCall {α : Type} (bs n : Nat) (data : NamedData α) : List (NamedData α) :=
  minibatchesSlices bs (List.range (nrChunks n bs)) data

/-- Progress counts sent by Minibatches.__call__ (line 172): after the i-th
yielded batch it sends (i + 1) * batch_size. -/
def minibatchesSent (bs n : Nat) : List Nat :=
  (List.range (nrChunks n bs)).map (fun i => (i + 1) * bs)

/-- Batches produced by Online.__call__ (lines 126-129) for a given list of
sample indices: each index idx contributes the batch mapping every name to
the slice v[:, idx : idx+1]. -/
def onlineSlices {α : Type} (indices : List Nat) (data : NamedData α) :
    List (NamedData α) :=
  indices.map (fun idx =>
    data.map (fun kv => (kv.1, sliceBatch idx (idx + 1) kv.2)))

/-- Online.__call__ with shuffle disabled: indices are np.arange(n). -/
def onlineCall {α : Type} (n : Nat) (data : NamedData α) : List (NamedData α) :=
  onlineSlices (List.range n) data

/-- Progress counts sent by Online.__call__ (line 130): after the i-th
yielded batch it sends i + 1. -/
def onlineSent (n : Nat) : List Nat :=
  (List.range n).map (fun i => i + 1)

/-- Undivided.__call__ (lines 96-97): yields the stored dataset once. -/
def undividedCall {α : Type} (data : NamedData α) : List (NamedData α) := [data]

/-- Fixed bar text of progress_bar (line 12). -/
def barText : String := "====1====2====3====4====5====6====7====8====9====0"

/-- One resume step of progress_bar (line 19): computes
trunc(progress / maximum * barLen); a zero maximum is a Python
ZeroDivisionError, modelled as none. -/
def progressBarStep (maximum progress barLen : Nat) : Option Nat :=
  if maximum = 0 then none else some (progress * barLen / maximum)

/-- Concatenation of a nonempty list of arrays along the batch axis
(np.concatenate with axis=1): corresponding time rows are appended. -/
def concatCols {α : Type} : List (Arr α) → Arr α
  | [] => []
  | [v] => v
  | v :: w :: vs => List.zipWith (fun r s => r ++ s) v (concatCols (w :: vs))

/-- Error cases of _assert_correct_data_format (lines 176-194).
emptyMinError models the Python ValueError of min applied to an empty
collection, reachable only for an empty dataset. -/
inductive DataFormatError where
  | noShapeAttr (name : String)
  | tooFewDims
  | unequalNrSequences
  | emptyMinError
deriving DecidableEq

/-- Loop of _assert_correct_data_format (lines 178-187): walk the named
entries in order, fail on the first entry without a shape attribute or with
fewer than 3 dimensions, and collect shape[1] of every entry. -/
def collectNrSequences : List (String × Option (List Nat)) →
    Except DataFormatError (List Nat)
  | [] => Except.ok []
  | (name, none) :: _ => Except.error (DataFormatError.noShapeAttr name)
  | (_, some sh) :: rest =>
      if sh.length < 3 then Except.error DataFormatError.tooFewDims
      else (collectNrSequences rest).map (fun ns => sh.getD 1 0 :: ns)

/-- _assert_correct_data_format (lines 176-194): after collecting shape[1]
of every entry, fail when min and max of the collected values differ, and
otherwise return the common value. -/
def assertCorrectDataFormat (d : List (String × Option (List Nat))) :
    Except DataFormatError Nat :=
  (collectNrSequences d).bind (fun ns =>
    match ns with
    | [] => Except.error DataFormatError.emptyMinError
    | n :: rest =>
        if rest.foldl Nat.min n ≠ rest.foldl Nat.max n
        then Except.error DataFormatError.unequalNrSequences
        else Except.ok (rest.foldl Nat.min n))

/-- Error cases of AddGaussianNoise.__init__ (lines 48-67): the two assert
statements, and the AttributeError raised by accessing iter.data on a
wrapped iterator that does not define a data attribute. -/
inductive NoiseInitError where
  | meanStdKeysMismatch
  | noDataAttr
  | keyNotInIterator (k : String)
deriving DecidableEq

/-- Python set equality of two key lists. -/
def sameKeySet (a b : List String) : Bool :=
  a.all (fun k => b.contains k) && b.all (fun k => a.contains k)

/-- Loop of AddGaussianNoise.__init__ (lines 61-64): for every key of
std_dict, access iter.data (AttributeError when the wrapped iterator has no
data attribute, which only happens once the loop body runs) and assert the
key is present. -/
def checkStdKeys (iterData : Option (List String)) : List String →
    Except NoiseInitError Unit
  | [] => Except.ok ()
  | k :: ks =>
      match iterData with
      | none => Except.error NoiseInitError.noDataAttr
      | some names =>
          if names.contains k then checkStdKeys iterData ks
          else Except.error (NoiseInitError.keyNotInIterator k)

/-- AddGaussianNoise.__init__ (lines 48-67), validation part: when a
mean_dict is supplied its key set must equal the std_dict key set (line 58),
then every std_dict key must be present in iter.data (lines 61-64). -/
def addGaussianNoiseInit (iterData : Option (List String)) (stdKeys : List String)
    (meanKeys : Option (List String)) : Except NoiseInitError Unit :=
  match meanKeys with
  | some mk =>
      if sameKeySet mk stdKeys then checkStdKeys iterData stdKeys
      else Except.error NoiseInitError.meanStdKeysMismatch
  | none => checkStdKeys iterData stdKeys

/-- Attribute view of an iterator object as seen by AddGaussianNoise.__init__:
its declared data_names, and, when the object defines a data attribute, the
key list of that attribute. -/
structure IterModel where
  dataNames : List String
  dataKeys : Option (List String)
deriving DecidableEq

/-- Undivided (also Online and Minibatches) stores the named data in a data
attribute whose keys are exactly the declared data names. -/
def undividedIterModel (names : List String) : IterModel :=
  { dataNames := names, dataKeys := some names }

/-- AddGaussianNoise copies data_names from the wrapped iterator but defines
no data attribute of its own. -/
def addGaussianNoiseIterModel (inner : IterModel) : IterModel :=
  { dataNames := inner.dataNames, dataKeys := none }

/-- AddGaussianNoise.__init__ applied to a wrapped iterator object. -/
def addGaussianNoiseInitOn (inner : IterModel) (stdKeys : List String)
    (meanKeys : Option (List String)) : Except NoiseInitError Unit :=
  addGaussianNoiseInit inner.dataKeys stdKeys meanKeys

/-- External compute-handler capability used by AddGaussianNoise.__call__:
allocate a zero array of a given row profile, overwrite an array with
Gaussian-distributed values for a given mean and std, and elementwise add
into an output array.  The handler is an external collaborator; theorems
about noise therefore quantify over it. -/
structure Handler where
  zeros : List Nat → Arr Int
  fillGaussian : Int → Int → Arr Int → Arr Int
  addTT : Arr Int → Arr Int → Arr Int

/-- Body of the inner loop of AddGaussianNoise.__call__ (lines 72-76):
noise = handler.zeros(data[key].shape); fill it with Gaussian values for
mean_dict.get(key, 0.0) and std_dict.get(key); add data[key] into it. -/
def mkNoise (h : Handler) (stdD meanD : List (String × Int)) (k : String)
    (v : Arr Int) : Arr Int :=
  let noise0 := h.zeros (rowProfile v)
  let mean := (meanD.lookup k).getD 0
  let std := (stdD.lookup k).getD 0
  let noise1 := h.fillGaussian mean std noise0
  h.addTT v noise1

/-- Python dict assignment data[key] = value on an association list whose
keys are unique: the entry with that key is replaced. -/
def setEntry (k : String) (v : Arr Int) (d : NamedData Int) : NamedData Int :=
  d.map (fun e => if e.1 = k then (k, v) else e)

/-- Inner loop of AddGaussianNoise.__call__ (lines 71-77): for every key of
std_dict in order, read data[key], build the noised array, and assign it
back into the same dict object. -/
def addNoiseToBatch (h : Handler) (stdD meanD : List (String × Int))
    (data : NamedData Int) : NamedData Int :=
  (stdD.map Prod.fst).foldl
    (fun d k => setEntry k (mkNoise h stdD meanD k ((d.lookup k).getD [])) d) data

/-- AddGaussianNoise.__call__ (lines 69-78) over the batches produced by the
wrapped iterator. -/
def addGaussianNoiseCall (h : Handler) (stdD meanD : List (String × Int))
    (innerBatches : List (NamedData Int)) : List (NamedData Int) :=
  innerBatches.map (addNoiseToBatch h stdD meanD)

/-- Fully consuming AddGaussianNoise wrapped around Undivided.  Undivided
yields the very dict object it stores (line 97 yields self.data without a
copy), and the decorator loop executes data[key] = noise on that same
object, so after consumption the stored mapping of the Undivided iterator is
the mutated dict.  First component: the yielded batches; second component:
the stored dataset of the Undivided iterator after consumption. -/
def noiseOverUndividedRun (h : Handler) (stdD meanD : List (String × Int))
    (stored : NamedData Int) : List (NamedData Int) × NamedData Int :=
  let mutated := addNoiseToBatch h stdD meanD stored
  ([mutated], mutated)

/-- Concrete deterministic handler used to evaluate the noise path on
explicit inputs: zeros builds zero arrays of the requested profile, the
Gaussian fill writes mean + std everywhere, addition is elementwise. -/
def constHandler : Handler where
  zeros := fun profile => profile.map (fun len => List.replicate len 0)
  fillGaussian := fun mean std noise =>
    noise.map (fun row => row.map (fun _ => mean + std))
  addTT := fun a b => List.zipWith (fun ra rb => List.zipWith (fun x y => x + y) ra rb) a b

/-- Validated-dataset invariant established by _assert_correct_data_format:
every named array has every time row of common batch length n. -/
abbrev ValidData {α : Type} (n : Nat) (data : NamedData α) : Prop :=
  ∀ kv ∈ data, ∀ r ∈ kv.2, r.length = n

/-- Shape-level property of one validator entry: the object has a shape
attribute with at least 3 dimensions and batch dimension n. -/
def EntryOkAt (n : Nat) (e : String × Option (List Nat)) : Prop :=
  ∃ sh, e.2 = some sh ∧ 3 ≤ sh.length ∧ sh.getD 1 0 = n

/-- Batch dimension shape[1] read by the validator from one entry (0 when
the shape attribute is absent, a case the validator rejects anyway). -/
def entryDim (e : String × Option (List Nat)) : Nat := (e.2.getD []).getD 1 0

/-- Behaviour claimed for Undivided: exactly one batch, equal to the stored
dataset with the same names mapped to the same arrays. -/
def UndividedProp {α : Type} (data : NamedData α) : Prop :=
  undividedCall data = [data] ∧ (undividedCall data).length = 1

/-- Behaviour of Online and Minibatches on a dataset whose common batch
dimension is 0: no batches, no progress sent, and the progress-bar division
by the sample count is never reached. -/
def EmptyDataProp {α : Type} (bs : Nat) (data : NamedData α) : Prop :=
  onlineCall 0 data = [] ∧ minibatchesCall bs 0 data = [] ∧
  onlineSent 0 = [] ∧ minibatchesSent bs 0 = [] ∧
  (∀ p ∈ minibatchesSent bs 0, (progressBarStep 0 p barText.length).isSome = true) ∧
  (∀ p ∈ onlineSent 0, (progressBarStep 0 p barText.length).isSome = true)

/-- Behaviour claimed for Online on a validated dataset with n sequences,
where perm is the index order produced by the shuffle (an arbitrary
permutation of the range) and onlineCall is the shuffle-disabled order:
n batches in every order; the shuffled batch multiset equals the unshuffled
one, so the covered index set is 0..n-1; with shuffle disabled the i-th
batch is the slice at index i; every batch keeps a batch dimension of
size 1. -/
def OnlineProp {α : Type} (n : Nat) (data : NamedData α) (perm : List Nat) : Prop :=
  (onlineSlices perm data).length = n ∧
  (onlineSlices perm data).Perm (onlineCall n data) ∧
  (onlineCall n data).length = n ∧
  (∀ i, i < n → (onlineCall n data).getD i [] =
      data.map (fun kv => (kv.1, sliceBatch i (i + 1) kv.2))) ∧
  (∀ b ∈ onlineSlices perm data, ∀ kv ∈ b, ∀ r ∈ kv.2, r.length = 1)

/-- Behaviour claimed for Minibatches on a validated dataset with n
sequences and chunk size bs, where perm is the chunk order produced by the
shuffle: ceil(n / bs) batches in every order, each the contiguous slice of
every named array for its chunk index; with shuffle disabled the last batch
has batch dimension n - bs * (ceil(n / bs) - 1) and concatenating the
batches in order along the batch axis rebuilds every named array. -/
def MinibatchesProp {α : Type} (bs n : Nat) (data : NamedData α) (perm : List Nat) : Prop :=
  (minibatchesSlices bs perm data).length = nrChunks n bs ∧
  (∀ b ∈ minibatchesSlices bs perm data, ∃ idx, idx ∈ perm ∧
      b = data.map (fun kv => (kv.1, sliceBatch (idx * bs) ((idx + 1) * bs) kv.2))) ∧
  (minibatchesCall bs n data).length = nrChunks n bs ∧
  (∀ kv ∈ ((minibatchesCall bs n data).getLast?.getD []), ∀ r ∈ kv.2,
      r.length = n - bs * (nrChunks n bs - 1)) ∧
  (∀ j, j < data.length →
      concatCols ((minibatchesCall bs n data).map (fun b => (b.getD j ("", [])).2)) =
        (data.getD j ("", [])).2)

/-- Progress accounting of Minibatches: the count sent after the i-th batch
is (i + 1) * bs, while the number of samples contained in the batches
yielded so far, measured on any time row of any named array, is
min ((i + 1) * bs) n; the two agree exactly as long as (i + 1) * bs does
not exceed n. -/
def MinibatchesProgressProp {α : Type} (bs n : Nat) (data : NamedData α) : Prop :=
  minibatchesSent bs n = (List.range (nrChunks n bs)).map (fun i => (i + 1) * bs) ∧
  (∀ i, i < nrChunks n bs →
    (minibatchesSent bs n).getD i 0 = (i + 1) * bs ∧
    (∀ kv ∈ data, ∀ t, t < kv.2.length →
      ((List.range (i + 1)).map
          (fun j => ((sliceBatch (j * bs) ((j + 1) * bs) kv.2).getD t []).length)).sum =
        min ((i + 1) * bs) n) ∧
    ((i + 1) * bs ≤ n → ∀ kv ∈ data, ∀ t, t < kv.2.length →
      (minibatchesSent bs n).getD i 0 =
        ((List.range (i + 1)).map
          (fun j => ((sliceBatch (j * bs) ((j + 1) * bs) kv.2).getD t []).length)).sum))

/-- Behaviour claimed for one batch passing through AddGaussianNoise: names
are preserved positionally, every name configured in std_dict keeps its row
profile, and every unconfigured name passes through unchanged. -/
def NoiseBatchProp (h : Handler) (stdD meanD : List (String × Int))
    (data : NamedData Int) : Prop :=
  ∀ j, j < data.length →
    ((addNoiseToBatch h stdD meanD data).getD j ("", [])).1 = (data.getD j ("", [])).1 ∧
    ((data.getD j ("", [])).1 ∈ stdD.map Prod.fst →
      rowProfile ((addNoiseToBatch h stdD meanD data).getD j ("", [])).2 =
        rowProfile (data.getD j ("", [])).2) ∧
    ((data.getD j ("", [])).1 ∉ stdD.map Prod.fst →
      (addNoiseToBatch h stdD meanD data).getD j ("", []) = data.getD j ("", []))

theorem getD_range_map {α : Type} (n i : Nat) (hi : i < n) (f : Nat → α) (d : α) :
    ((List.range n).map f).getD i d = f i := by
  have hlen : i < ((List.range n).map f).length := by
    simpa using hi
  rw [List.getD_eq_getElem _ _ hlen]
  simp

/-- Claim C3: Undivided yields exactly one batch, and that batch is the
stored dataset unchanged, for every validated dataset. -/
theorem undivided_single_batch {α : Type} (n : Nat) (data : NamedData α)
    (hdata : ValidData n data) : UndividedProp data :=
  ⟨rfl, rfl⟩

theorem undivided_single_batch_witness :
    ValidData 1 [("x", ([[5]] : Arr Int))] ∧ UndividedProp [("x", ([[5]] : Arr Int))] :=
  ⟨by decide, undivided_single_batch 1 [("x", ([[5]] : Arr Int))] (by decide)⟩

/-- Claim C10: on a validated dataset with common batch dimension 0, Online
and Minibatches yield no batches and send no progress, so the division by
the sample count inside the progress bar is never reached. -/
theorem empty_dataset_yields_no_batches {α : Type} (bs : Nat) (hbs : 0 < bs)
    (data : NamedData α) (hdata : ValidData 0 data) : EmptyDataProp bs data := by
  have hchunks : nrChunks 0 bs = 0 := by
    unfold nrChunks
    exact Nat.div_eq_of_lt (by omega)
  refine ⟨rfl, ?_, rfl, ?_, ?_, ?_⟩
  · simp [minibatchesCall, minibatchesSlices, hchunks]
  · simp [minibatchesSent, hchunks]
  · simp [minibatchesSent, hchunks]
  · simp [onlineSent]

theorem empty_dataset_yields_no_batches_witness :
    0 < 10 ∧ ValidData 0 [("x", ([[]] : Arr Int))] ∧
      EmptyDataProp 10 [("x", ([[]] : Arr Int))] :=
  ⟨by decide, by decide,
    empty_dataset_yields_no_batches 10 (by decide) [("x", ([[]] : Arr Int))] (by decide)⟩

/-- Claim C6, failing input: wrapping AddGaussianNoise around another
AddGaussianNoise fails at construction with an AttributeError even though
the configured name is among the declared data names of the wrapped
iterator, because the constructor reads iter.data rather than
iter.data_names and the decorator defines no data attribute. -/
theorem noise_on_noise_attribute_error :
    ("default" ∈ (addGaussianNoiseIterModel (undividedIterModel ["default"])).dataNames) ∧
    addGaussianNoiseInitOn (addGaussianNoiseIterModel (undividedIterModel ["default"]))
        ["default"] none = Except.error NoiseInitError.noDataAttr :=
  ⟨by simp [addGaussianNoiseIterModel, undividedIterModel], rfl⟩

/-- Claim C7, failing input: fully consuming AddGaussianNoise wrapped around
Undivided replaces the stored dataset entry of the Undivided iterator with
the noised array, so a second invocation yields different batches. -/
theorem noise_over_undivided_mutates :
    (noiseOverUndividedRun constHandler [("x", 1)] [] [("x", [[0]])]).2 ≠ [("x", [[0]])] ∧
    (noiseOverUndividedRun constHandler [("x", 1)] []
        ((noiseOverUndividedRun constHandler [("x", 1)] [] [("x", [[0]])]).2)).1 ≠
      (noiseOverUndividedRun constHandler [("x", 1)] [] [("x", [[0]])]).1 := by
  constructor
  · decide
  · decide

/-- Claim C5, counterexample: an explicitly supplied empty mean mapping has
a key set that is a strict subset of a nonempty std key set; the claim
requires construction to succeed, but the constructor asserts key-set
equality and fails. -/
theorem noise_init_mean_subset_fails :
    (∀ k ∈ ([] : List String), k ∈ (["x"] : List String)) ∧
    addGaussianNoiseInitOn (undividedIterModel ["x"]) ["x"] (some []) =
      Except.error NoiseInitError.meanStdKeysMismatch ∧
    addGaussianNoiseInitOn (undividedIterModel ["x"]) ["x"] (some []) ≠
      Except.ok () := by
  refine ⟨by simp, rfl, ?_⟩
  intro hcontra
  exact Except.noConfusion hcontra

/-- Claim C5, amended: when every configured std name is present in the data
keys of the wrapped concrete iterator, construction succeeds exactly when
the mean mapping is omitted entirely or its key set equals the std key set;
any explicitly supplied mean mapping whose key set differs, including a
strict subset, is rejected. -/
theorem noise_init_ok_iff (names stdKeys : List String)
    (meanKeys : Option (List String))
    (hsub : ∀ k ∈ stdKeys, names.contains k = true) :
    addGaussianNoiseInitOn (undividedIterModel names) stdKeys meanKeys = Except.ok () ↔
      (meanKeys = none ∨ ∃ mk, meanKeys = some mk ∧ sameKeySet mk stdKeys = true) := by
  have hchk : checkStdKeys (some names) stdKeys = Except.ok () := by
    induction stdKeys with
    | nil => rfl
    | cons k ks ih =>
        have hk : names.contains k = true := hsub k (by simp)
        have hks : ∀ k ∈ ks, names.contains k = true := by
          intro k hkk
          exact hsub k (by simp [hkk])
        simp only [checkStdKeys, hk, if_true]
        exact ih hks
  cases meanKeys with
  | none =>
      constructor
      · intro _
        exact Or.inl rfl
      · intro _
        exact hchk
  | some mk =>
      by_cases hs : sameKeySet mk stdKeys = true
      · constructor
        · intro _
          exact Or.inr ⟨mk, rfl, hs⟩
        · intro _
          show addGaussianNoiseInit (some names) stdKeys (some mk) = Except.ok ()
          simp only [addGaussianNoiseInit, hs, if_true]
          exact hchk
      · have hred : addGaussianNoiseInitOn (undividedIterModel names) stdKeys (some mk) =
            Except.error NoiseInitError.meanStdKeysMismatch := by
          show addGaussianNoiseInit (some names) stdKeys (some mk) =
            Except.error NoiseInitError.meanStdKeysMismatch
          simp [addGaussianNoiseInit, hs]
        rw [hred]
        constructor
        · intro hcontra
          exact Except.noConfusion hcontra
        · intro hor
          rcases hor with hnone | ⟨mk2, hmk2, hset⟩
          · exact Option.noConfusion hnone
          · rw [Option.some_inj] at hmk2
            subst hmk2
            exact absurd hset hs

theorem noise_init_ok_iff_witness :
    (∀ k ∈ (["x"] : List String), (["x", "y"] : List String).contains k = true) ∧
    (addGaussianNoiseInitOn (undividedIterModel ["x", "y"]) ["x"] (some ["x"]) =
        Except.ok () ↔
      ((some ["x"] : Option (List String)) = none ∨
        ∃ mk, (some ["x"] : Option (List String)) = some mk ∧
          sameKeySet mk ["x"] = true)) :=
  ⟨by decide, noise_init_ok_iff ["x", "y"] ["x"] (some ["x"]) (by decide)⟩

/-- Claim C2: Online yields exactly n batches; the shuffled batch sequence
is a permutation of the unshuffled one, so the covered index set is
0..n-1; with shuffle disabled the i-th batch is the single-index slice at
index i, in strictly increasing index order; and every yielded array keeps
a batch dimension of size 1. -/
theorem online_spec {α : Type} (n : Nat) (data : NamedData α)
    (hdata : ValidData n data) (perm : List Nat)
    (hperm : perm.Perm (List.range n)) : OnlineProp n data perm := by
  refine ⟨?_, ?_, ?_, ?_, ?_⟩
  · simp [onlineSlices, hperm.length_eq]
  · exact hperm.map _
  · simp [onlineCall, onlineSlices]
  · intro i hi
    exact getD_range_map n i hi _ _
  · intro b hb kv hkv r hr
    simp only [onlineSlices, List.mem_map] at hb
    obtain ⟨idx, hidxmem, rfl⟩ := hb
    simp only [List.mem_map] at hkv
    obtain ⟨kv0, hkv0, rfl⟩ := hkv
    simp only [sliceBatch, List.mem_map] at hr
    obtain ⟨r0, hr0, rfl⟩ := hr
    have hidx : idx < n := by
      have hmem := hperm.mem_iff.mp hidxmem
      simpa [List.mem_range] using hmem
    have hlen := hdata kv0 hkv0 r0 hr0
    rw [List.length_take, List.length_drop, hlen]
    omega

theorem online_spec_witness :
    ValidData 2 [("x", ([[5, 6], [7, 8]] : Arr Int))] ∧
    ([1, 0] : List Nat).Perm (List.range 2) ∧
    OnlineProp 2 [("x", ([[5, 6], [7, 8]] : Arr Int))] [1, 0] :=
  ⟨by decide, by decide,
    online_spec 2 [("x", ([[5, 6], [7, 8]] : Arr Int))] (by decide) [1, 0] (by decide)⟩

theorem collect_ok_of_good (d : List (String × Option (List Nat)))
    (h : ∀ e ∈ d, ∃ sh, e.2 = some sh ∧ 3 ≤ sh.length) :
    collectNrSequences d = Except.ok (d.map entryDim) := by
  induction d with
  | nil => rfl
  | cons e0 rest ih =>
      obtain ⟨name, os⟩ := e0
      obtain ⟨sh, hsh, hlen⟩ := h (name, os) (by simp)
      simp only at hsh
      subst hsh
      have hrest := ih (fun e he => h e (by simp [he]))
      simp only [collectNrSequences, hrest]
      rw [if_neg (by omega)]
      simp [entryDim, Except.map]

theorem collect_good_of_ok (d : List (String × Option (List Nat))) (ns : List Nat)
    (h : collectNrSequences d = Except.ok ns) :
    ∀ e ∈ d, ∃ sh, e.2 = some sh ∧ 3 ≤ sh.length := by
  induction d generalizing ns with
  | nil => simp
  | cons e0 rest ih =>
      obtain ⟨name, os⟩ := e0
      cases os with
      | none => simp [collectNrSequences] at h
      | some sh =>
          by_cases hlt : sh.length < 3
          · simp [collectNrSequences, hlt] at h
          · simp only [collectNrSequences, if_neg hlt] at h
            cases hre : collectNrSequences rest with
            | error err => rw [hre] at h; simp [Except.map] at h
            | ok ns' =>
                intro e he
                rcases List.mem_cons.mp he with rfl | hmem
                · exact ⟨sh, rfl, by omega⟩
                · exact ih ns' hre e hmem

theorem foldl_min_le_init (l : List Nat) (n : Nat) : l.foldl Nat.min n ≤ n := by
  induction l generalizing n with
  | nil => exact Nat.le_refl n
  | cons a l ih =>
      calc (a :: l).foldl Nat.min n = l.foldl Nat.min (Nat.min n a) := rfl
        _ ≤ Nat.min n a := ih (Nat.min n a)
        _ ≤ n := Nat.min_le_left n a

theorem foldl_min_le_mem (l : List Nat) : ∀ (n x : Nat), x ∈ l →
    l.foldl Nat.min n ≤ x := by
  induction l with
  | nil =>
      intro n x hx
      simp at hx
  | cons a l ih =>
      intro n x hx
      rcases List.mem_cons.mp hx with rfl | hmem
      · calc (x :: l).foldl Nat.min n = l.foldl Nat.min (Nat.min n x) := rfl
          _ ≤ Nat.min n x := foldl_min_le_init l (Nat.min n x)
          _ ≤ x := Nat.min_le_right n x
      · exact ih (Nat.min n a) x hmem

theorem le_foldl_max_init (l : List Nat) (n : Nat) : n ≤ l.foldl Nat.max n := by
  induction l generalizing n with
  | nil => exact Nat.le_refl n
  | cons a l ih =>
      calc n ≤ Nat.max n a := Nat.le_max_left n a
        _ ≤ l.foldl Nat.max (Nat.max n a) := ih (Nat.max n a)
        _ = (a :: l).foldl Nat.max n := rfl

theorem le_foldl_max_mem (l : List Nat) : ∀ (n x : Nat), x ∈ l →
    x ≤ l.foldl Nat.max n := by
  induction l with
  | nil =>
      intro n x hx
      simp at hx
  | cons a l ih =>
      intro n x hx
      rcases List.mem_cons.mp hx with rfl | hmem
      · calc x ≤ Nat.max n x := Nat.le_max_right n x
          _ ≤ l.foldl Nat.max (Nat.max n x) := le_foldl_max_init l (Nat.max n x)
          _ = (x :: l).foldl Nat.max n := rfl
      · exact ih (Nat.max n a) x hmem

theorem foldl_min_all_eq (l : List Nat) (n : Nat) (h : ∀ x ∈ l, x = n) :
    l.foldl Nat.min n = n := by
  induction l with
  | nil => rfl
  | cons a l ih =>
      have ha : a = n := h a (by simp)
      subst ha
      have hmm : Nat.min a a = a := by simp [Nat.min_def]
      calc (a :: l).foldl Nat.min a = l.foldl Nat.min (Nat.min a a) := rfl
        _ = l.foldl Nat.min a := by rw [hmm]
        _ = a := ih (fun x hx => h x (by simp [hx]))

theorem foldl_max_all_eq (l : List Nat) (n : Nat) (h : ∀ x ∈ l, x = n) :
    l.foldl Nat.max n = n := by
  induction l with
  | nil => rfl
  | cons a l ih =>
      have ha : a = n := h a (by simp)
      subst ha
      have hmm : Nat.max a a = a := by simp [Nat.max_def]
      calc (a :: l).foldl Nat.max a = l.foldl Nat.max (Nat.max a a) := rfl
        _ = l.foldl Nat.max a := by rw [hmm]
        _ = a := ih (fun x hx => h x (by simp [hx]))

/-- Claim C4: on a nonempty named dataset the validator returns the common
batch dimension exactly when every entry has a shape attribute with at
least 3 dimensions and all batch dimensions agree, and otherwise raises a
validation error. -/
theorem assert_correct_data_format_spec (d : List (String × Option (List Nat)))
    (hd : d ≠ []) :
    (∃ nr, assertCorrectDataFormat d = Except.ok nr ∧ ∀ e ∈ d, EntryOkAt nr e) ∨
    ((∃ err, assertCorrectDataFormat d = Except.error err) ∧
      ¬ ∃ nr, ∀ e ∈ d, EntryOkAt nr e) := by
  obtain ⟨e0, d', rfl⟩ := List.exists_cons_of_ne_nil hd
  by_cases hgood : ∀ e ∈ e0 :: d', ∃ sh, e.2 = some sh ∧ 3 ≤ sh.length
  · have hcol : collectNrSequences (e0 :: d') =
        Except.ok (entryDim e0 :: d'.map entryDim) := by
      simpa using collect_ok_of_good _ hgood
    by_cases hall : ∀ x ∈ d'.map entryDim, x = entryDim e0
    · left
      have hmin := foldl_min_all_eq (d'.map entryDim) (entryDim e0) hall
      have hmax := foldl_max_all_eq (d'.map entryDim) (entryDim e0) hall
      refine ⟨entryDim e0, ?_, ?_⟩
      · simp only [assertCorrectDataFormat, hcol, Except.bind]
        rw [if_neg (fun hc => hc (by rw [hmin, hmax]))]
        rw [hmin]
      · intro e he
        obtain ⟨sh, hsh, hlen⟩ := hgood e he
        refine ⟨sh, hsh, hlen, ?_⟩
        rcases List.mem_cons.mp he with rfl | hmem
        · simp [entryDim, hsh]
        · have hxmem : entryDim e ∈ d'.map entryDim := List.mem_map_of_mem entryDim hmem
          have hx := hall _ hxmem
          rw [← hx]
          simp [entryDim, hsh]
    · right
      push_neg at hall
      obtain ⟨x, hx, hxne⟩ := hall
      constructor
      · refine ⟨DataFormatError.unequalNrSequences, ?_⟩
        have h1 := foldl_min_le_init (d'.map entryDim) (entryDim e0)
        have h2 := foldl_min_le_mem (d'.map entryDim) (entryDim e0) x hx
        have h3 := le_foldl_max_init (d'.map entryDim) (entryDim e0)
        have h4 := le_foldl_max_mem (d'.map entryDim) (entryDim e0) x hx
        have hne : (d'.map entryDim).foldl Nat.min (entryDim e0) ≠
            (d'.map entryDim).foldl Nat.max (entryDim e0) := by omega
        simp only [assertCorrectDataFormat, hcol, Except.bind]
        rw [if_pos hne]
      · rintro ⟨nr, hnr⟩
        obtain ⟨e', he', hdime⟩ := List.mem_map.mp hx
        obtain ⟨sh0, hsh0, _, hdim0⟩ := hnr e0 (by simp)
        obtain ⟨sh', hsh', _, hdim'⟩ := hnr e' (by simp [he'])
        apply hxne
        have hx' : x = nr := by
          rw [← hdime]
          simp only [entryDim, hsh', Option.getD_some]
          exact hdim'
        have h0 : entryDim e0 = nr := by
          simp only [entryDim, hsh0, Option.getD_some]
          exact hdim0
        rw [hx', h0]
  · right
    constructor
    · cases hre : collectNrSequences (e0 :: d') with
      | ok ns => exact absurd (collect_good_of_ok _ ns hre) hgood
      | error err =>
          exact ⟨err, by simp [assertCorrectDataFormat, hre, Except.bind]⟩
    · rintro ⟨nr, hnr⟩
      apply hgood
      intro e he
      obtain ⟨sh, hsh, hlen, _⟩ := hnr e he
      exact ⟨sh, hsh, hlen⟩

theorem assert_correct_data_format_spec_witness :
    ([("x", some [5, 4, 2]), ("y", some [5, 4, 1])] :
        List (String × Option (List Nat))) ≠ [] ∧
    ((∃ nr, assertCorrectDataFormat
          [("x", some [5, 4, 2]), ("y", some [5, 4, 1])] = Except.ok nr ∧
        ∀ e ∈ ([("x", some [5, 4, 2]), ("y", some [5, 4, 1])] :
            List (String × Option (List Nat))), EntryOkAt nr e) ∨
      ((∃ err, assertCorrectDataFormat
            [("x", some [5, 4, 2]), ("y", some [5, 4, 1])] = Except.error err) ∧
        ¬ ∃ nr, ∀ e ∈ ([("x", some [5, 4, 2]), ("y", some [5, 4, 1])] :
            List (String × Option (List Nat))), EntryOkAt nr e)) :=
  ⟨by decide, assert_correct_data_format_spec
    [("x", some [5, 4, 2]), ("y", some [5, 4, 1])] (by decide)⟩

theorem flatten_chunks {α : Type} (bs : Nat) :
    ∀ (k : Nat) (r : List α), r.length ≤ k * bs →
      ((List.range k).map (fun j => (r.drop (j * bs)).take bs)).flatten = r := by
  intro k
  induction k with
  | zero =>
      intro r hr
      have hnil : r = [] := List.eq_nil_of_length_eq_zero (by omega)
      subst hnil
      rfl
  | succ k ih =>
      intro r hr
      rw [List.range_succ_eq_map, List.map_cons, List.flatten_cons, List.map_map]
      have hzero : (r.drop (0 * bs)).take bs = r.take bs := by
        norm_num
      have hmc : (List.range k).map ((fun j => (r.drop (j * bs)).take bs) ∘ Nat.succ)
          = (List.range k).map (fun j => ((r.drop bs).drop (j * bs)).take bs) := by
        apply List.map_congr_left
        intro j _
        show (r.drop (Nat.succ j * bs)).take bs = ((r.drop bs).drop (j * bs)).take bs
        have harg : Nat.succ j * bs = bs + j * bs := by
          rw [Nat.succ_eq_add_one]
          ring
        rw [harg, List.drop_drop]
      have hlen : (r.drop bs).length ≤ k * bs := by
        rw [List.length_drop]
        have hexp : (k + 1) * bs = k * bs + bs := by ring
        omega
      rw [hzero, hmc, ih (r.drop bs) hlen, List.take_append_drop]

theorem concatCols_cons {α : Type} (a : Arr α) (l : List (Arr α)) (h : l ≠ []) :
    concatCols (a :: l) = List.zipWith (fun r s => r ++ s) a (concatCols l) := by
  cases l with
  | nil => exact absurd rfl h
  | cons b t => rfl

theorem concatCols_map_slices {α : Type} (v : Arr α) :
    ∀ (k : Nat) (f : Nat → List α → List α),
      concatCols ((List.range (k + 1)).map (fun j => v.map (f j)))
        = v.map (fun r => ((List.range (k + 1)).map (fun j => f j r)).flatten) := by
  intro k
  induction k with
  | zero =>
      intro f
      simp [concatCols]
      intro a _
      have h1 : List.range 1 = [0] := rfl
      rw [h1]
      simp
  | succ k ih =>
      intro f
      rw [List.range_succ_eq_map (k + 1), List.map_cons, List.map_map]
      have hne : ((List.range (k + 1)).map ((fun j => v.map (f j)) ∘ Nat.succ)) ≠ [] := by
        simp [List.range_succ_eq_map]
      rw [concatCols_cons _ _ hne]
      have hcomp : ((fun j => v.map (f j)) ∘ Nat.succ)
          = (fun j => v.map (fun r => f (Nat.succ j) r)) := rfl
      rw [hcomp, ih (fun j => f (Nat.succ j)), List.zipWith_map, List.zipWith_same]
      apply List.map_congr_left
      intro r _
      simp only [List.map_cons, List.flatten_cons, List.map_map]
      rfl

theorem le_nrChunks_mul (n bs : Nat) (hbs : 0 < bs) : n ≤ nrChunks n bs * bs := by
  by_contra hcon
  push_neg at hcon
  have h1 : 1 ≤ n := by omega
  have h2 : (nrChunks n bs + 1) * bs ≤ n + bs - 1 := by
    have hexp : (nrChunks n bs + 1) * bs = nrChunks n bs * bs + bs := by ring
    omega
  have h3 : nrChunks n bs + 1 ≤ (n + bs - 1) / bs := (Nat.le_div_iff_mul_le hbs).mpr h2
  have h4 : (n + bs - 1) / bs = nrChunks n bs := rfl
  omega

theorem nrChunks_pos (n bs : Nat) (hbs : 0 < bs) (hn : 0 < n) : 0 < nrChunks n bs := by
  have h1 : 1 * bs ≤ n + bs - 1 := by omega
  have h2 := (Nat.le_div_iff_mul_le hbs).mpr h1
  simpa [nrChunks] using h2

theorem nrChunks_pred_mul_lt (n bs : Nat) (hbs : 0 < bs) (hn : 0 < n) :
    (nrChunks n bs - 1) * bs < n := by
  by_contra hcon
  push_neg at hcon
  have hk := nrChunks_pos n bs hbs hn
  have hexp : nrChunks n bs * bs = (nrChunks n bs - 1) * bs + bs := by
    have hkk : nrChunks n bs = (nrChunks n bs - 1) + 1 := by omega
    calc nrChunks n bs * bs = ((nrChunks n bs - 1) + 1) * bs := by rw [← hkk]
      _ = (nrChunks n bs - 1) * bs + bs := by ring
  have h2 : n + bs - 1 < nrChunks n bs * bs := by omega
  have h3 : (n + bs - 1) / bs < nrChunks n bs := (Nat.div_lt_iff_lt_mul hbs).mpr h2
  have h4 : (n + bs - 1) / bs = nrChunks n bs := rfl
  omega

/-- Claim C1: for a validated dataset with n sequences, chunk size bs and
any shuffle order, Minibatches yields exactly ceil(n / bs) batches, each the
contiguous chunk slice of every named array; with shuffle disabled the last
batch has batch dimension n - bs * (ceil(n / bs) - 1) and concatenating the
yielded batches in order along the batch axis rebuilds every named array. -/
theorem minibatches_spec {α : Type} (bs n : Nat) (hbs : 0 < bs) (hn : 0 < n)
    (data : NamedData α) (hdata : ValidData n data) (perm : List Nat)
    (hperm : perm.Perm (List.range (nrChunks n bs))) :
    MinibatchesProp bs n data perm := by
  have hk := nrChunks_pos n bs hbs hn
  have hk1 : nrChunks n bs = (nrChunks n bs - 1) + 1 := by omega
  refine ⟨?_, ?_, ?_, ?_, ?_⟩
  · simp [minibatchesSlices, hperm.length_eq]
  · intro b hb
    simp only [minibatchesSlices, List.mem_map] at hb
    obtain ⟨idx, hidx, rfl⟩ := hb
    exact ⟨idx, hidx, rfl⟩
  · simp [minibatchesCall, minibatchesSlices]
  · intro kv hkv r hr
    have hlast : (minibatchesCall bs n data).getLast?.getD [] =
        data.map (fun kv => (kv.1, sliceBatch ((nrChunks n bs - 1) * bs)
          ((nrChunks n bs - 1 + 1) * bs) kv.2)) := by
      unfold minibatchesCall minibatchesSlices
      have hrange : List.range (nrChunks n bs) =
          List.range (nrChunks n bs - 1) ++ [nrChunks n bs - 1] := by
        conv_lhs => rw [hk1]
        exact List.range_succ (nrChunks n bs - 1)
      rw [hrange, List.map_append, List.map_cons, List.map_nil, List.getLast?_concat]
      rfl
    rw [hlast] at hkv
    simp only [List.mem_map] at hkv
    obtain ⟨kv0, hkv0, rfl⟩ := hkv
    simp only [sliceBatch, List.mem_map] at hr
    obtain ⟨r0, hr0, rfl⟩ := hr
    have hlen := hdata kv0 hkv0 r0 hr0
    rw [List.length_take, List.length_drop, hlen]
    have hle := le_nrChunks_mul n bs hbs
    have hlt := nrChunks_pred_mul_lt n bs hbs hn
    have hexp : (nrChunks n bs - 1 + 1) * bs = (nrChunks n bs - 1) * bs + bs := by ring
    have hcomm : bs * (nrChunks n bs - 1) = (nrChunks n bs - 1) * bs := by ring
    have hexp2 : nrChunks n bs * bs = (nrChunks n bs - 1) * bs + bs := by
      calc nrChunks n bs * bs = ((nrChunks n bs - 1) + 1) * bs := by rw [← hk1]
        _ = (nrChunks n bs - 1) * bs + bs := by ring
    omega
  · intro j hj
    have hmap : (minibatchesCall bs n data).map (fun b => (b.getD j ("", [])).2)
        = (List.range (nrChunks n bs)).map
            (fun i => sliceBatch (i * bs) ((i + 1) * bs) ((data.getD j ("", [])).2)) := by
      unfold minibatchesCall minibatchesSlices
      rw [List.map_map]
      apply List.map_congr_left
      intro i _
      show ((data.map (fun kv => (kv.1, sliceBatch (i * bs) ((i + 1) * bs) kv.2))).getD
          j ("", [])).2 = sliceBatch (i * bs) ((i + 1) * bs) ((data.getD j ("", [])).2)
      have hjlen : j < (data.map
          (fun kv => (kv.1, sliceBatch (i * bs) ((i + 1) * bs) kv.2))).length := by
        simpa using hj
      rw [List.getD_eq_getElem _ _ hjlen, List.getElem_map, List.getD_eq_getElem _ _ hj]
    rw [hmap]
    have hsl : ∀ i, sliceBatch (i * bs) ((i + 1) * bs) ((data.getD j ("", [])).2)
        = ((data.getD j ("", [])).2).map (fun r => (r.drop (i * bs)).take bs) := by
      intro i
      unfold sliceBatch
      apply List.map_congr_left
      intro r _
      have hsub : (i + 1) * bs - i * bs = bs := by
        have hexp : (i + 1) * bs = i * bs + bs := by ring
        omega
      rw [hsub]
    have hcongr : (List.range (nrChunks n bs)).map
          (fun i => sliceBatch (i * bs) ((i + 1) * bs) ((data.getD j ("", [])).2))
        = (List.range ((nrChunks n bs - 1) + 1)).map
            (fun i => ((data.getD j ("", [])).2).map
              (fun r => (r.drop (i * bs)).take bs)) := by
      rw [← hk1]
      exact List.map_congr_left (fun i _ => hsl i)
    rw [hcongr, concatCols_map_slices]
    have hvmem : data.getD j ("", []) ∈ data := by
      rw [List.getD_eq_getElem _ _ hj]
      exact List.getElem_mem hj
    have hfinal : ((data.getD j ("", [])).2).map
          (fun r => ((List.range ((nrChunks n bs - 1) + 1)).map
            (fun i => (r.drop (i * bs)).take bs)).flatten)
        = ((data.getD j ("", [])).2).map (fun r => r) := by
      apply List.map_congr_left
      intro r hr
      apply flatten_chunks
      rw [hdata _ hvmem r hr, ← hk1]
      exact le_nrChunks_mul n bs hbs
    rw [hfinal]
    simp

theorem minibatches_spec_witness :
    0 < 3 ∧ 0 < 4 ∧
    ValidData 4 [("x", ([[0, 1, 2, 3]] : Arr Int)), ("y", ([[9, 8, 7, 6]] : Arr Int))] ∧
    ([1, 0] : List Nat).Perm (List.range (nrChunks 4 3)) ∧
    MinibatchesProp 3 4
      [("x", ([[0, 1, 2, 3]] : Arr Int)), ("y", ([[9, 8, 7, 6]] : Arr Int))] [1, 0] :=
  ⟨by decide, by decide, by decide, by decide,
    minibatches_spec 3 4 (by decide) (by decide)
      [("x", ([[0, 1, 2, 3]] : Arr Int)), ("y", ([[9, 8, 7, 6]] : Arr Int))]
      (by decide) [1, 0] (by decide)⟩

theorem sum_slice_lengths {α : Type} (bs n : Nat) (r : List α) (hr : r.length = n) :
    ∀ i, ((List.range (i + 1)).map
        (fun j => ((r.drop (j * bs)).take bs).length)).sum = min ((i + 1) * bs) n := by
  intro i
  induction i with
  | zero =>
      have h1 : List.range 1 = [0] := rfl
      rw [h1]
      simp only [List.map_cons, List.map_nil, List.sum_cons, List.sum_nil]
      rw [List.length_take, List.length_drop, hr]
      omega
  | succ i ih =>
      rw [List.range_succ (i + 1), List.map_append, List.sum_append, ih]
      simp only [List.map_cons, List.map_nil, List.sum_cons, List.sum_nil]
      rw [List.length_take, List.length_drop, hr]
      have hexp : (i + 1 + 1) * bs = (i + 1) * bs + bs := by ring
      omega

/-- Claim C8, amended: the count Minibatches sends after the i-th batch is
(i + 1) * batch_size, the samples contained in the batches yielded so far
number min ((i + 1) * batch_size) n, and the two agree exactly while
(i + 1) * batch_size does not exceed n; after a truncated final chunk the
final count overshoots n. -/
theorem minibatches_progress_spec {α : Type} (bs n : Nat) (hbs : 0 < bs)
    (data : NamedData α) (hdata : ValidData n data) :
    MinibatchesProgressProp bs n data := by
  refine ⟨rfl, ?_⟩
  intro i hi
  have hsent : (minibatchesSent bs n).getD i 0 = (i + 1) * bs :=
    getD_range_map _ i hi _ _
  have hsamp : ∀ kv ∈ data, ∀ t, t < kv.2.length →
      ((List.range (i + 1)).map
          (fun j => ((sliceBatch (j * bs) ((j + 1) * bs) kv.2).getD t []).length)).sum =
        min ((i + 1) * bs) n := by
    intro kv hkv t ht
    have hconv : ∀ j, (sliceBatch (j * bs) ((j + 1) * bs) kv.2).getD t []
        = ((kv.2.getD t []).drop (j * bs)).take ((j + 1) * bs - j * bs) := by
      intro j
      unfold sliceBatch
      have htlen : t < (kv.2.map
          (fun row => (row.drop (j * bs)).take ((j + 1) * bs - j * bs))).length := by
        simpa using ht
      rw [List.getD_eq_getElem _ _ htlen, List.getElem_map, List.getD_eq_getElem _ _ ht]
    have hsum : (List.range (i + 1)).map
        (fun j => ((sliceBatch (j * bs) ((j + 1) * bs) kv.2).getD t []).length)
        = (List.range (i + 1)).map
        (fun j => (((kv.2.getD t []).drop (j * bs)).take bs).length) := by
      apply List.map_congr_left
      intro j _
      rw [hconv j]
      have hsub : (j + 1) * bs - j * bs = bs := by
        have hexp : (j + 1) * bs = j * bs + bs := by ring
        omega
      rw [hsub]
    rw [hsum]
    have hrmem : kv.2.getD t [] ∈ kv.2 := by
      rw [List.getD_eq_getElem _ _ ht]
      exact List.getElem_mem ht
    exact sum_slice_lengths bs n _ (hdata kv hkv _ hrmem) i
  refine ⟨hsent, hsamp, ?_⟩
  intro hle kv hkv t ht
  rw [hsent, hsamp kv hkv t ht]
  omega

theorem minibatches_progress_spec_witness :
    0 < 3 ∧ ValidData 4 [("x", ([[0, 0, 0, 0]] : Arr Int))] ∧
    MinibatchesProgressProp 3 4 [("x", ([[0, 0, 0, 0]] : Arr Int))] :=
  ⟨by decide, by decide,
    minibatches_progress_spec 3 4 (by decide) [("x", ([[0, 0, 0, 0]] : Arr Int))]
      (by decide)⟩

/-- Claim C8, counterexample: with n = 4 samples and batch_size = 3 the
batches contain 3 and 1 samples, so after the second batch the samples
consumed number 4, but the count sent is 2 * 3 = 6; the final count does not
equal n. -/
theorem minibatches_progress_overshoots :
    minibatchesSent 3 4 = [3, 6] ∧
    ((minibatchesCall 3 4 [("x", ([[0, 0, 0, 0]] : Arr Int))]).map
        (fun b => (((b.getD 0 ("", [])).2).getD 0 []).length)).sum = 4 ∧
    (minibatchesSent 3 4).getD 1 0 = 6 ∧ (6 : Nat) ≠ 4 := by
  refine ⟨?_, ?_, ?_, ?_⟩
  · decide
  · decide
  · decide
  · decide

theorem lookup_eq_of_nodup (d : NamedData Int) (e : String × Arr Int)
    (hnd : (d.map Prod.fst).Nodup) (he : e ∈ d) : d.lookup e.1 = some e.2 := by
  induction d with
  | nil => simp at he
  | cons a t ih =>
      have hnd2 : (a.1 :: t.map Prod.fst).Nodup := by
        rw [List.map_cons] at hnd
        exact hnd
      have hsplit := List.nodup_cons.mp hnd2
      rcases List.mem_cons.mp he with rfl | hmem
      · simp [List.lookup]
      · have hein : e.1 ∈ t.map Prod.fst := List.mem_map_of_mem Prod.fst hmem
        have hne : e.1 ≠ a.1 := fun hcontra => hsplit.1 (hcontra ▸ hein)
        have hb : (e.1 == a.1) = false := beq_eq_false_iff_ne.mpr hne
        have hstep : (a :: t).lookup e.1 = t.lookup e.1 := by
          cases a
          simp [List.lookup, hb]
        rw [hstep]
        exact ih hsplit.2 hmem

theorem setEntry_map_fst (k : String) (v : Arr Int) (d : NamedData Int) :
    (setEntry k v d).map Prod.fst = d.map Prod.fst := by
  unfold setEntry
  rw [List.map_map]
  apply List.map_congr_left
  intro e _
  by_cases he : e.1 = k
  · simp [he]
  · simp [he]

theorem foldl_setEntry_eq_map (g : String → Arr Int → Arr Int) :
    ∀ (keys : List String) (d : NamedData Int), keys.Nodup →
      (d.map Prod.fst).Nodup → (∀ k ∈ keys, k ∈ d.map Prod.fst) →
      keys.foldl (fun acc k => setEntry k (g k ((acc.lookup k).getD [])) acc) d
        = d.map (fun e => if e.1 ∈ keys then (e.1, g e.1 e.2) else e) := by
  intro keys
  induction keys with
  | nil =>
      intro d _ _ _
      simp
  | cons k ks ih =>
      intro d hknd hdnd hsub
      have hksplit := List.nodup_cons.mp hknd
      have hkmem : k ∈ d.map Prod.fst := hsub k (by simp)
      obtain ⟨e0, he0, he0k⟩ := List.mem_map.mp hkmem
      have hlk : d.lookup k = some e0.2 := by
        rw [← he0k]
        exact lookup_eq_of_nodup d e0 hdnd he0
      rw [List.foldl_cons, hlk]
      simp only [Option.getD_some]
      have hd1fst : (setEntry k (g k e0.2) d).map Prod.fst = d.map Prod.fst :=
        setEntry_map_fst k (g k e0.2) d
      have h1 := ih (setEntry k (g k e0.2) d) hksplit.2 (by rw [hd1fst]; exact hdnd)
        (fun k2 hk2 => by
          rw [hd1fst]
          exact hsub k2 (by simp [hk2]))
      rw [h1]
      unfold setEntry
      rw [List.map_map]
      apply List.map_congr_left
      intro e he
      simp only [Function.comp_apply]
      by_cases hek : e.1 = k
      · have heq : e = e0 := by
          apply List.inj_on_of_nodup_map hdnd he he0
          rw [he0k, hek]
        rw [if_pos hek]
        show (if k ∈ ks then (k, g k (g k e0.2)) else (k, g k e0.2))
          = if e.1 ∈ k :: ks then (e.1, g e.1 e.2) else e
        rw [if_neg hksplit.1,
          if_pos (show e.1 ∈ k :: ks by rw [hek]; exact List.mem_cons_self k ks),
          hek, heq]
      · rw [if_neg hek]
        have hmemiff : (e.1 ∈ k :: ks) ↔ (e.1 ∈ ks) := by
          constructor
          · intro hm
            rcases List.mem_cons.mp hm with hcontra | hm2
            · exact absurd hcontra hek
            · exact hm2
          · intro hm
            exact List.mem_cons_of_mem k hm
        by_cases hks : e.1 ∈ ks
        · rw [if_pos hks, if_pos (hmemiff.mpr hks)]
        · rw [if_neg hks, if_neg (fun hc => hks (hmemiff.mp hc))]

theorem addNoiseToBatch_eq_map (h : Handler) (stdD meanD : List (String × Int))
    (data : NamedData Int) (hknd : (stdD.map Prod.fst).Nodup)
    (hdnd : (data.map Prod.fst).Nodup)
    (hsub : ∀ k ∈ stdD.map Prod.fst, k ∈ data.map Prod.fst) :
    addNoiseToBatch h stdD meanD data
      = data.map (fun e => if e.1 ∈ stdD.map Prod.fst
          then (e.1, mkNoise h stdD meanD e.1 e.2) else e) :=
  foldl_setEntry_eq_map (fun k v => mkNoise h stdD meanD k v)
    (stdD.map Prod.fst) data hknd hdnd hsub

theorem rowProfile_mkNoise (h : Handler)
    (hzeros : ∀ p, rowProfile (h.zeros p) = p)
    (hfill : ∀ m s v, rowProfile (h.fillGaussian m s v) = rowProfile v)
    (hadd : ∀ a b, rowProfile a = rowProfile b →
      rowProfile (h.addTT a b) = rowProfile b)
    (stdD meanD : List (String × Int)) (k : String) (v : Arr Int) :
    rowProfile (mkNoise h stdD meanD k v) = rowProfile v := by
  unfold mkNoise
  have h1 : rowProfile (h.fillGaussian ((meanD.lookup k).getD 0)
      ((stdD.lookup k).getD 0) (h.zeros (rowProfile v))) = rowProfile v := by
    rw [hfill, hzeros]
  rw [hadd _ _ h1.symm, h1]

/-- Claim C9: for every batch from the wrapped iterator, the noise decorator
preserves names positionally, keeps the row profile of every name configured
in std_dict, and passes every unconfigured name through unchanged; the
handler hypotheses are the shape contract of the external compute handler. -/
theorem add_gaussian_noise_batch_spec (h : Handler)
    (hzeros : ∀ p, rowProfile (h.zeros p) = p)
    (hfill : ∀ m s v, rowProfile (h.fillGaussian m s v) = rowProfile v)
    (hadd : ∀ a b, rowProfile a = rowProfile b →
      rowProfile (h.addTT a b) = rowProfile b)
    (stdD meanD : List (String × Int)) (data : NamedData Int)
    (hknd : (stdD.map Prod.fst).Nodup) (hdnd : (data.map Prod.fst).Nodup)
    (hsub : ∀ k ∈ stdD.map Prod.fst, k ∈ data.map Prod.fst) :
    NoiseBatchProp h stdD meanD data := by
  intro j hj
  have hmap := addNoiseToBatch_eq_map h stdD meanD data hknd hdnd hsub
  have hget : (addNoiseToBatch h stdD meanD data).getD j ("", [])
      = (fun e => if e.1 ∈ stdD.map Prod.fst
          then (e.1, mkNoise h stdD meanD e.1 e.2) else e) (data.getD j ("", [])) := by
    rw [hmap]
    have hjlen : j < (data.map (fun e => if e.1 ∈ stdD.map Prod.fst
        then (e.1, mkNoise h stdD meanD e.1 e.2) else e)).length := by
      simpa using hj
    rw [List.getD_eq_getElem _ _ hjlen, List.getElem_map, List.getD_eq_getElem _ _ hj]
  rw [hget]
  by_cases hek : (data.getD j ("", [])).1 ∈ stdD.map Prod.fst
  · refine ⟨?_, ?_, ?_⟩
    · show (if (data.getD j ("", [])).1 ∈ stdD.map Prod.fst
          then ((data.getD j ("", [])).1,
            mkNoise h stdD meanD (data.getD j ("", [])).1 (data.getD j ("", [])).2)
          else data.getD j ("", [])).1 = (data.getD j ("", [])).1
      rw [if_pos hek]
    · intro _
      show rowProfile (if (data.getD j ("", [])).1 ∈ stdD.map Prod.fst
          then ((data.getD j ("", [])).1,
            mkNoise h stdD meanD (data.getD j ("", [])).1 (data.getD j ("", [])).2)
          else data.getD j ("", [])).2 = rowProfile (data.getD j ("", [])).2
      rw [if_pos hek]
      exact rowProfile_mkNoise h hzeros hfill hadd stdD meanD _ _
    · intro hcontra
      exact absurd hek hcontra
  · refine ⟨?_, ?_, ?_⟩
    · show (if (data.getD j ("", [])).1 ∈ stdD.map Prod.fst
          then ((data.getD j ("", [])).1,
            mkNoise h stdD meanD (data.getD j ("", [])).1 (data.getD j ("", [])).2)
          else data.getD j ("", [])).1 = (data.getD j ("", [])).1
      rw [if_neg hek]
    · intro hcontra
      exact absurd hcontra hek
    · intro _
      show (if (data.getD j ("", [])).1 ∈ stdD.map Prod.fst
          then ((data.getD j ("", [])).1,
            mkNoise h stdD meanD (data.getD j ("", [])).1 (data.getD j ("", [])).2)
          else data.getD j ("", [])) = data.getD j ("", [])
      rw [if_neg hek]

theorem constHandler_zeros_profile : ∀ p, rowProfile (constHandler.zeros p) = p := by
  intro p
  show rowProfile (p.map (fun len => List.replicate len (0 : Int))) = p
  unfold rowProfile
  rw [List.map_map]
  have hcomp : (List.length ∘ fun len => List.replicate len (0 : Int)) = id := by
    funext len
    simp
  rw [hcomp, List.map_id]

theorem constHandler_fill_profile :
    ∀ m s v, rowProfile (constHandler.fillGaussian m s v) = rowProfile v := by
  intro m s v
  show rowProfile (v.map (fun row => row.map (fun _ => m + s))) = rowProfile v
  unfold rowProfile
  rw [List.map_map]
  apply List.map_congr_left
  intro r _
  simp

theorem constHandler_add_profile : ∀ a b, rowProfile a = rowProfile b →
    rowProfile (constHandler.addTT a b) = rowProfile b := by
  intro a
  induction a with
  | nil =>
      intro b hab
      cases b with
      | nil => rfl
      | cons rb tb => simp [rowProfile] at hab
  | cons ra ta ih =>
      intro b hab
      cases b with
      | nil => simp [rowProfile] at hab
      | cons rb tb =>
          unfold rowProfile at hab
          simp only [List.map_cons, List.cons.injEq] at hab
          show rowProfile (List.zipWith (fun x y => List.zipWith (fun p q => p + q) x y)
              (ra :: ta) (rb :: tb)) = rowProfile (rb :: tb)
          rw [List.zipWith_cons_cons]
          unfold rowProfile
          simp only [List.map_cons, List.cons.injEq]
          constructor
          · rw [List.length_zipWith]
            have h1 := hab.1
            omega
          · exact ih tb hab.2

theorem add_gaussian_noise_batch_spec_witness :
    (∀ p, rowProfile (constHandler.zeros p) = p) ∧
    (∀ m s v, rowProfile (constHandler.fillGaussian m s v) = rowProfile v) ∧
    (∀ a b, rowProfile a = rowProfile b →
      rowProfile (constHandler.addTT a b) = rowProfile b) ∧
    ((([("x", 2)] : List (String × Int)).map Prod.fst).Nodup) ∧
    ((([("x", [[3, 4], [5, 6]]), ("y", [[7]])] : NamedData Int).map Prod.fst).Nodup) ∧
    (∀ k ∈ ([("x", 2)] : List (String × Int)).map Prod.fst,
      k ∈ ([("x", [[3, 4], [5, 6]]), ("y", [[7]])] : NamedData Int).map Prod.fst) ∧
    NoiseBatchProp constHandler [("x", 2)] []
      [("x", [[3, 4], [5, 6]]), ("y", [[7]])] :=
  ⟨constHandler_zeros_profile, constHandler_fill_profile, constHandler_add_profile,
    by decide, by decide, by decide,
    add_gaussian_noise_batch_spec constHandler constHandler_zeros_profile
      constHandler_fill_profile constHandler_add_profile [("x", 2)] []
      [("x", [[3, 4], [5, 6]]), ("y", [[7]])] (by decide) (by decide) (by decide)⟩
